import Mathlib

/-!
Verification of the Metis Document Lifecycle & Validation Engine.

The repository ships the engine behind an RPC boundary; the supplied sources
contain the integration-test harnesses (`tests/integration/*.py`) and the task
runner (`.angreal/task_dev.py`).  The engine itself (Document Codec, Phase
Transition Engine, Structured Editor, Document Index / Search) is specified in
`spec.md`; its definitions below are modelled from that specification.  The
test-harness helper `send_mcp_request` and the task-runner `run_tests` are
translated directly from the Python sources.

A raw document text is modelled at the granularity of its lines
(`Raw := List String`); byte-identity of two texts is identity of their line
lists.
-/

namespace Metis

/-- A raw text, as its list of lines. -/
abbrev Raw := List String

/-- Modelled from the spec: the closed set of document types (§3). -/
inductive DocType
  | vision
  | strategy
  | initiative
  | task
  | decision
deriving DecidableEq

/-- Modelled from the spec: the union of all lifecycle phases (§4.2). -/
inductive Phase
  | draft
  | review
  | published
  | active
  | completed
  | blocked
deriving DecidableEq

/-- Modelled from the spec: optional risk level (§3). -/
inductive RiskLevel
  | low
  | medium
  | high
deriving DecidableEq

/-- Modelled from the spec: one exit criterion `{text, completed}` (§3). -/
structure Criterion where
  text : String
  completed : Bool
deriving DecidableEq

/-- Modelled from the spec: one section `{heading, body}`; the body is kept as
its list of lines (§3). -/
structure DocSection where
  heading : String
  body : List String
deriving DecidableEq

/-- Modelled from the spec: the Document data model (§3).  `rawTail` is the
`raw_unparsed_tail`: lines the codec could not classify, preserved verbatim. -/
structure Document where
  id : String
  docType : DocType
  phase : Phase
  title : String
  riskLevel : Option RiskLevel
  exitCriteria : List Criterion
  blockedBy : List String
  rawTail : List String
  sections : List DocSection
deriving DecidableEq

/-- Modelled from the spec: parse-time structural errors (§4.1, §7).  The
strict grammar (design note §9) additionally needs `missingTitle` for a
document whose title line is absent. -/
inductive CodecError
  | missingType
  | unknownPhase (value : String)
  | missingTitle
  | malformedCriterion (line : String)
deriving DecidableEq

/-- Canonical storage name of a document type. -/
def docTypeName : DocType → String
  | .vision => "vision"
  | .strategy => "strategy"
  | .initiative => "initiative"
  | .task => "task"
  | .decision => "decision"

/-- Inverse of `docTypeName` on the closed set of canonical names. -/
def docTypeOfName (s : String) : Option DocType :=
  if s = "vision" then some .vision
  else if s = "strategy" then some .strategy
  else if s = "initiative" then some .initiative
  else if s = "task" then some .task
  else if s = "decision" then some .decision
  else none

/-- Canonical storage name of a phase. -/
def phaseName : Phase → String
  | .draft => "draft"
  | .review => "review"
  | .published => "published"
  | .active => "active"
  | .completed => "completed"
  | .blocked => "blocked"

/-- Inverse of `phaseName` on the closed set of canonical names. -/
def phaseOfName (s : String) : Option Phase :=
  if s = "draft" then some .draft
  else if s = "review" then some .review
  else if s = "published" then some .published
  else if s = "active" then some .active
  else if s = "completed" then some .completed
  else if s = "blocked" then some .blocked
  else none

/-- Canonical storage name of a risk level. -/
def riskName : RiskLevel → String
  | .low => "low"
  | .medium => "medium"
  | .high => "high"

/-- Inverse of `riskName` on the closed set of canonical names. -/
def riskOfName (s : String) : Option RiskLevel :=
  if s = "low" then some .low
  else if s = "medium" then some .medium
  else if s = "high" then some .high
  else none

/-- Modelled from the spec: the per-type phase domain (§4.2). -/
def phaseDomain : DocType → List Phase
  | .vision | .strategy | .decision => [.draft, .review, .published]
  | .initiative | .task => [.draft, .active, .completed, .blocked]

/-- Modelled from the spec: direct successors in the per-type transition graph
(§4.2): `Draft → Review → Published` for vision/strategy/decision documents,
`Draft → Active → Completed` with `Active ↔ Blocked` for initiative/task
documents. -/
def successors : DocType → Phase → List Phase
  | .vision, .draft | .strategy, .draft | .decision, .draft => [.review]
  | .vision, .review | .strategy, .review | .decision, .review => [.published]
  | .initiative, .draft | .task, .draft => [.active]
  | .initiative, .active | .task, .active => [.completed, .blocked]
  | .initiative, .blocked | .task, .blocked => [.active]
  | _, _ => []

/-- Modelled from the spec: the phase considered "resolved" for blocker gating
(§4.2c): `Published` for vision/strategy/decision, `Completed` for
initiative/task. -/
def resolvedPhase : DocType → Phase → Bool
  | .vision, .published | .strategy, .published | .decision, .published => true
  | .initiative, .completed | .task, .completed => true
  | _, _ => false

/-- If `p` is a prefix of `s`, the remainder of `s` after `p`; `none`
otherwise. -/
def dropMarker (p s : String) : Option String :=
  if p.data.isPrefixOf s.data then some ⟨s.data.drop p.data.length⟩ else none

/-- Modelled from the spec: the metadata line carrying the `doc_type` marker;
no recognizable marker is `CodecError.missingType` (§4.1). -/
def parseType (ls : Raw) : Except CodecError (DocType × Raw) :=
  match ls with
  | [] => .error .missingType
  | l :: rest =>
    match dropMarker "type: " l with
    | none => .error .missingType
    | some v =>
      match docTypeOfName v with
      | none => .error .missingType
      | some dt => .ok (dt, rest)

/-- Modelled from the spec: the phase line, validated against the type's phase
domain; an absent or invalid value is `CodecError.unknownPhase` (§4.1). -/
def parsePhase (dt : DocType) (ls : Raw) : Except CodecError (Phase × Raw) :=
  match ls with
  | [] => .error (.unknownPhase "")
  | l :: rest =>
    match dropMarker "phase: " l with
    | none => .error (.unknownPhase l)
    | some v =>
      match phaseOfName v with
      | some p => if p ∈ phaseDomain dt then .ok (p, rest) else .error (.unknownPhase v)
      | none => .error (.unknownPhase v)

/-- Modelled from the spec: the title line (§4.1, strict grammar §9). -/
def parseTitle (ls : Raw) : Except CodecError (String × Raw) :=
  match ls with
  | [] => .error .missingTitle
  | l :: rest =>
    match dropMarker "title: " l with
    | none => .error .missingTitle
    | some v => .ok (v, rest)

/-- Modelled from the spec: the optional risk line; a line that is not a
well-formed risk line is left for the fallback (`raw_unparsed_tail`). -/
def parseRisk (ls : Raw) : Option RiskLevel × Raw :=
  match ls with
  | [] => (none, ls)
  | l :: rest =>
    match dropMarker "risk: " l with
    | some v =>
      match riskOfName v with
      | some r => (some r, rest)
      | none => (none, ls)
    | none => (none, ls)

/-- Modelled from the spec: checklist-style criterion lines; the completion
flag comes from the marker token, the text is everything after the marker; a
checklist line that cannot be split into marker+text is
`CodecError.malformedCriterion` (§4.1). -/
def parseCriteria : Raw → Except CodecError (List Criterion × Raw)
  | [] => .ok ([], [])
  | l :: rest =>
    match dropMarker "- [ ] " l with
    | some t =>
      match parseCriteria rest with
      | .ok (cs, r) => .ok (⟨t, false⟩ :: cs, r)
      | .error e => .error e
    | none =>
      match dropMarker "- [x] " l with
      | some t =>
        match parseCriteria rest with
        | .ok (cs, r) => .ok (⟨t, true⟩ :: cs, r)
        | .error e => .error e
      | none =>
        if (dropMarker "- [" l).isSome then .error (.malformedCriterion l)
        else .ok ([], l :: rest)

/-- Modelled from the spec: the `blocked_by` lines, one link-style reference
per line; zero entries is an empty set, not an error (§4.1). -/
def parseBlocked : Raw → List String × Raw
  | [] => ([], [])
  | l :: rest =>
    match dropMarker "blocked: " l with
    | some r =>
      match parseBlocked rest with
      | (bs, rem) => (r :: bs, rem)
    | none => ([], l :: rest)

/-- Modelled from the spec: unclassified lines before the first heading are
kept verbatim as the `raw_unparsed_tail` (§4.1). -/
def parseTail : Raw → Raw × Raw
  | [] => ([], [])
  | l :: rest =>
    if (dropMarker "## " l).isSome then ([], l :: rest)
    else
      match parseTail rest with
      | (t, rem) => (l :: t, rem)

/-- Modelled from the spec: body segmentation by heading markers — body lines
are accumulated under the current heading until the next heading (§4.1). -/
def parseSectionsAux (cur : DocSection) : Raw → List DocSection
  | [] => [cur]
  | l :: ls =>
    match dropMarker "## " l with
    | some h => cur :: parseSectionsAux ⟨h, []⟩ ls
    | none => parseSectionsAux ⟨cur.heading, cur.body ++ [l]⟩ ls

/-- Modelled from the spec: the section list of the body; the caller hands
this function lines that start at a heading (or nothing). -/
def parseSections : Raw → List DocSection
  | [] => []
  | l :: ls =>
    match dropMarker "## " l with
    | some h => parseSectionsAux ⟨h, []⟩ ls
    | none => parseSectionsAux ⟨l, []⟩ ls

/-- Modelled from the spec: `parse(raw_text) → Document | CodecError` (§4.1).
The strict line grammar (design note §9) is: a type line, a phase line, a
title line, an optional risk line, checklist lines, blocked lines, the
unclassified tail, then heading-delimited sections.  `id` is the stable
identifier derived from the storage path (§3). -/
def parse (id : String) (ls : Raw) : Except CodecError Document :=
  match parseType ls with
  | .error e => .error e
  | .ok (dt, ls1) =>
    match parsePhase dt ls1 with
    | .error e => .error e
    | .ok (ph, ls2) =>
      match parseTitle ls2 with
      | .error e => .error e
      | .ok (ti, ls3) =>
        match parseRisk ls3 with
        | (rk, ls4) =>
          match parseCriteria ls4 with
          | .error e => .error e
          | .ok (cs, ls5) =>
            match parseBlocked ls5 with
            | (bs, ls6) =>
              match parseTail ls6 with
              | (tl, ls7) =>
                .ok { id := id, docType := dt, phase := ph, title := ti,
                      riskLevel := rk, exitCriteria := cs, blockedBy := bs,
                      rawTail := tl, sections := parseSections ls7 }

/-- One criterion rendered back to its checklist line. -/
def serializeCriterion (c : Criterion) : String :=
  (if c.completed then "- [x] " else "- [ ] ") ++ c.text

/-- One section rendered back to its heading line followed by its body. -/
def serializeSection (s : DocSection) : Raw :=
  ("## " ++ s.heading) :: s.body

/-- The risk line, when a risk level is present. -/
def riskLines : Option RiskLevel → Raw
  | some r => ["risk: " ++ riskName r]
  | none => []

/-- The metadata lines of a document: type, phase, title and optional risk. -/
def serializeMeta (d : Document) : Raw :=
  ("type: " ++ docTypeName d.docType)
    :: ("phase: " ++ phaseName d.phase)
    :: ("title: " ++ d.title)
    :: riskLines d.riskLevel

/-- Everything after the criteria block: blocked references, unclassified
tail, sections. -/
def serializeRest (d : Document) : Raw :=
  d.blockedBy.map (fun r => "blocked: " ++ r)
    ++ d.rawTail
    ++ (d.sections.map serializeSection).flatten

/-- Modelled from the spec: `serialize(Document) → raw_text` (§4.1),
reproducing the exact original formatting of every unmutated field. -/
def serialize (d : Document) : Raw :=
  serializeMeta d ++ d.exitCriteria.map serializeCriterion ++ serializeRest d

/-- Modelled from the spec: a Project Index entry — type, phase, title summary
of a referenced document (§3). -/
structure IdxEntry where
  ref : String
  docType : DocType
  phase : Phase
deriving DecidableEq

/-- Modelled from the spec: the process-scoped Project Index (§3). -/
abbrev ProjectIndex := List IdxEntry

/-- Resolve a blocked-by reference via the Project Index. -/
def lookupIndex (idx : ProjectIndex) (r : String) : Option IdxEntry :=
  idx.find? (fun e => e.ref == r)

/-- Modelled from the spec: a reference gates a transition unless it resolves
to a document in a resolved phase; missing or unresolvable references count as
unresolved, not as errors (§4.2). -/
def blockerResolved (idx : ProjectIndex) (r : String) : Bool :=
  match lookupIndex idx r with
  | some e => resolvedPhase e.docType e.phase
  | none => false

/-- Modelled from the spec: the reason field of a `TransitionReport` (§4.2). -/
inductive TransitionReason
  | ok
  | notAdjacent
  | gatesFailed
deriving DecidableEq

/-- Modelled from the spec: the pure `TransitionReport` (§4.2). -/
structure TransitionReport where
  allowed : Bool
  unmetCriteria : List String
  unresolvedBlockers : List String
  reason : TransitionReason
deriving DecidableEq

/-- Modelled from the spec: `checkTransition(doc, targetPhase)` — pure and
read-only; allowed iff the target is a direct successor, all exit criteria are
completed and every blocker resolves to a resolved document (§4.2). -/
def checkTransition (idx : ProjectIndex) (d : Document) (target : Phase) :
    TransitionReport :=
  let adjacent := decide (target ∈ successors d.docType d.phase)
  let unmet := (d.exitCriteria.filter (fun c => !c.completed)).map (fun c => c.text)
  let unres := d.blockedBy.filter (fun r => !blockerResolved idx r)
  { allowed := adjacent && unmet.isEmpty && unres.isEmpty
    unmetCriteria := unmet
    unresolvedBlockers := unres
    reason :=
      if !adjacent then .notAdjacent
      else if unmet.isEmpty && unres.isEmpty then .ok
      else .gatesFailed }

/-- Modelled from the spec: transition failures (§4.2). -/
inductive TransitionError
  | illegalPhase
  | gateFailed (unmetCriteria : List String) (unresolvedBlockers : List String)
deriving DecidableEq

/-- Modelled from the spec: `transition(doc, targetPhase, force)`; `force`
bypasses the soft gates but never graph adjacency (§4.2). -/
def transition (idx : ProjectIndex) (d : Document) (target : Phase)
    (force : Bool) : Except TransitionError Document :=
  let rep := checkTransition idx d target
  if decide (target ∈ successors d.docType d.phase) then
    if force || (rep.unmetCriteria.isEmpty && rep.unresolvedBlockers.isEmpty) then
      .ok { d with phase := target }
    else .error (.gateFailed rep.unmetCriteria rep.unresolvedBlockers)
  else .error .illegalPhase

/-- Modelled from the spec: editing failures (§4.3). -/
inductive EditError
  | headingNotFound
deriving DecidableEq

/-- Replace the body of the first section whose heading matches exactly;
`none` when no heading matches. -/
def replaceInSections (heading : String) (newBody : List String) :
    List DocSection → Option (List DocSection)
  | [] => none
  | s :: ss =>
    if s.heading = heading then some ({ s with body := newBody } :: ss)
    else
      match replaceInSections heading newBody ss with
      | some ss' => some (s :: ss')
      | none => none

/-- Modelled from the spec: `replaceSection(doc, heading, newBody)` — exact,
case-sensitive heading match; replaces only that section's body and fails with
`EditError.headingNotFound` otherwise (§4.3). -/
def replaceSection (d : Document) (heading : String) (newBody : List String) :
    Except EditError Document :=
  match replaceInSections heading newBody d.sections with
  | some ss => .ok { d with sections := ss }
  | none => .error .headingNotFound

/-- Modelled from the spec: `setCriterion(doc, criterionText, completed)` —
matches by exact criterion text, toggling an existing entry; an absent text is
appended as a new criterion (upsert, not an error) (§4.3). -/
def setCriterion (d : Document) (text : String) (completed : Bool) : Document :=
  if d.exitCriteria.any (fun c => c.text == text) then
    { d with exitCriteria :=
        d.exitCriteria.map (fun c =>
          if c.text == text then { c with completed := completed } else c) }
  else
    { d with exitCriteria := d.exitCriteria ++ [{ text := text, completed := completed }] }

/-- Keep the first occurrence of every reference not seen yet. -/
def dedupRefs (seen : List String) : List String → List String
  | [] => []
  | r :: rs =>
    if seen.contains r then dedupRefs seen rs
    else r :: dedupRefs (r :: seen) rs

/-- Modelled from the spec: `setBlockedBy(doc, references)` — replaces the
entire `blocked_by` set with the given list after deduplication and
self-reference removal (§4.3). -/
def setBlockedBy (d : Document) (refs : List String) : Document :=
  { d with blockedBy := dedupRefs [] (refs.filter (fun r => r ≠ d.id)) }

/-- Python's `str.strip`: drop leading and trailing whitespace. -/
def stripChars (l : List Char) : List Char :=
  ((l.dropWhile Char.isWhitespace).reverse.dropWhile Char.isWhitespace).reverse

/-- Whitespace tokenizer, accumulating the current token in reverse. -/
def tokenizeAux (cur : List Char) : List Char → List String
  | [] => if cur.isEmpty then [] else [⟨cur.reverse⟩]
  | c :: cs =>
    if c.isWhitespace then
      if cur.isEmpty then tokenizeAux [] cs
      else ⟨cur.reverse⟩ :: tokenizeAux [] cs
    else tokenizeAux (c :: cur) cs

/-- Modelled from the spec: tokenize a query or a text on whitespace (§4.4). -/
def tokenize (s : String) : List String :=
  tokenizeAux [] s.data

/-- Case normalization of a token; the spec's example matches the query
`alpha` against the title `Alpha Strategy` (§8). -/
def normTok (s : String) : String :=
  ⟨s.data.map Char.toLower⟩

/-- A query token is found in the title when it occurs among the title's
whitespace tokens, case-insensitively. -/
def titleHit (d : Document) (tok : String) : Bool :=
  ((tokenize d.title).map normTok).contains (normTok tok)

/-- A query token is found in the section bodies when it occurs among the
whitespace tokens of some body line, case-insensitively. -/
def bodyHit (d : Document) (tok : String) : Bool :=
  d.sections.any (fun s =>
    s.body.any (fun line => ((tokenize line).map normTok).contains (normTok tok)))

/-- Modelled from the spec: the fixed weight of a title match (§4.4: title
matches weighted higher than body matches, which count 1). -/
def titleWeight : Nat := 2

/-- Modelled from the spec: the relevance score — the count of query tokens
found in the title (weighted) plus in the section bodies (§4.4). -/
def scoreDoc (toks : List String) (d : Document) : Nat :=
  (toks.map (fun t =>
    (if titleHit d t then titleWeight else 0) + (if bodyHit d t then 1 else 0))).sum

/-- Modelled from the spec: one search result (§4.4). -/
structure SearchResult where
  id : String
  score : Nat
deriving DecidableEq

/-- Lexicographic order on character lists, by code point. -/
def lexLe : List Char → List Char → Bool
  | [], _ => true
  | _ :: _, [] => false
  | a :: as, b :: bs =>
    if a.toNat < b.toNat then true
    else if b.toNat < a.toNat then false
    else lexLe as bs

/-- Modelled from the spec: the result order — descending score, then document
identity for stable tie-breaking (§4.4). -/
def rankLE (a b : SearchResult) : Bool :=
  (b.score < a.score) || (a.score == b.score && lexLe a.id.data b.id.data)

/-- The ranking as a decidable relation, for sorting. -/
def RankRel (a b : SearchResult) : Prop := rankLE a b = true

instance : DecidableRel RankRel := fun a b => instDecidableEqBool (rankLE a b) true

/-- All positively scored documents of the corpus, unordered. -/
def matchingResults (corpus : List Document) (query : String) : List SearchResult :=
  (corpus.map (fun d => SearchResult.mk d.id (scoreDoc (tokenize query) d))).filter
    (fun r => decide (0 < r.score))

/-- Modelled from the spec: `search(project, query, limit)` — score every
document of the corpus, order by descending score then identity, return the
top `limit` (§4.4). -/
def search (corpus : List Document) (query : String) (limit : Nat) :
    List SearchResult :=
  (List.insertionSort RankRel (matchingResults corpus query)).take limit

/-- Modelled from the spec: a `DocumentSummary` — identity plus type, phase
and title (§3, §4.4). -/
structure DocumentSummary where
  id : String
  docType : DocType
  phase : Phase
  title : String
deriving DecidableEq

/-- The summary of a parsed document. -/
def summaryOf (d : Document) : DocumentSummary :=
  ⟨d.id, d.docType, d.phase, d.title⟩

/-- Modelled from the spec: `list(project)` — enumerate every parseable
document; documents that fail Codec parsing are collected into a separate
unparseable list instead of aborting the call (§4.4). -/
def listDocs : List (String × Raw) → List DocumentSummary × List String
  | [] => ([], [])
  | (p, ls) :: rest =>
    match listDocs rest with
    | (oks, bads) =>
      match parse p ls with
      | .ok d => (summaryOf d :: oks, bads)
      | .error _ => (oks, p :: bads)

/-- The JSON-decoding step of the Python harness `send_mcp_request`
(`tests/integration/*.py`): `json.loads(stdout.strip())` inside
`try/except json.JSONDecodeError`, returning the parsed value on success and
`None` on a decode error.  `loads` stands for `json.loads`, a fallible
function returning `Except`. -/
def send_mcp_request {ε α : Type} (loads : String → Except ε α)
    (stdout : String) : Option α :=
  match loads ⟨stripChars stdout.data⟩ with
  | .ok j => some j
  | .error _ => none

/-- One crate entry of `crate_configs` in `.angreal/task_dev.py`. -/
structure CrateConfig where
  name : String
  strategy : String
deriving DecidableEq

/-- The `crate_configs` list of `run_tests` (`.angreal/task_dev.py`), in
source order. -/
def crate_configs : List CrateConfig :=
  [⟨"metis-docs-core", "full"⟩,
   ⟨"metis-docs-cli", "integration_only"⟩,
   ⟨"metis-docs-mcp", "integration_only"⟩]

/-- Outcome of one `cargo test` invocation in `run_tests`: success, a
`CalledProcessError` with an exit code, or a missing `cargo` binary
(`FileNotFoundError`). -/
inductive TestOutcome
  | passed
  | failed (returncode : Int)
  | cargoMissing
deriving DecidableEq

/-- The crate loop of `run_tests`: runs each crate's tests in list order; on
`CalledProcessError` it calls `sys.exit(e.returncode)`, on `FileNotFoundError`
`sys.exit(1)`.  Returns the names of the crates whose tests were started, and
`some code` when the process exited early (or `none` when the loop
completed). -/
def runTestsFrom (runner : String → TestOutcome) :
    List CrateConfig → List String × Option Int
  | [] => ([], none)
  | c :: cs =>
    match runner c.name with
    | .passed =>
      match runTestsFrom runner cs with
      | (ran, r) => (c.name :: ran, r)
    | .failed code => ([c.name], some code)
    | .cargoMissing => ([c.name], some 1)

/-- `run_tests` from `.angreal/task_dev.py`, over an abstract `runner` that
gives each crate's `cargo test` outcome. -/
def run_tests (runner : String → TestOutcome) : List String × Option Int :=
  runTestsFrom runner crate_configs

/-- A concrete stored document used to instantiate the universally quantified
theorems below. -/
def exampleRaw : Raw :=
  ["type: vision", "phase: draft", "title: Test Vision", "risk: medium",
   "- [ ] Define scope", "- [x] Gather input", "blocked: [[Strategy Document]]",
   "intro text", "", "## Purpose", "body line 1", "body line 2",
   "## Other", "x"]

/-- The document `exampleRaw` parses to. -/
def exampleDoc : Document :=
  { id := "vision.md", docType := .vision, phase := .draft,
    title := "Test Vision", riskLevel := some .medium,
    exitCriteria := [⟨"Define scope", false⟩, ⟨"Gather input", true⟩],
    blockedBy := ["[[Strategy Document]]"],
    rawTail := ["intro text", ""],
    sections := [⟨"Purpose", ["body line 1", "body line 2"]⟩, ⟨"Other", ["x"]⟩] }

/-- `exampleDoc` after replacing the body of its `Purpose` section. -/
def exampleDocReplaced : Document :=
  { exampleDoc with sections := [⟨"Purpose", ["X"]⟩, ⟨"Other", ["x"]⟩] }

/-- A document whose title matches the query of the spec's search example. -/
def exampleDocA : Document :=
  { id := "a.md", docType := .vision, phase := .draft, title := "Alpha Strategy",
    riskLevel := none, exitCriteria := [], blockedBy := [], rawTail := [],
    sections := [] }

/-- A document whose body matches the query of the spec's search example. -/
def exampleDocB : Document :=
  { id := "b.md", docType := .vision, phase := .draft, title := "Beta",
    riskLevel := none, exitCriteria := [], blockedBy := [], rawTail := [],
    sections := [⟨"S", ["alpha alpha alpha"]⟩] }

end Metis

deriving instance DecidableEq for Except

namespace Metis

theorem eq_of_data_eq {a b : String} (h : a.data = b.data) : a = b := by
  cases a
  cases b
  simp_all

theorem dropMarker_eq {p s r : String} (h : dropMarker p s = some r) :
    s = p ++ r := by
  unfold dropMarker at h
  split at h
  · rename_i hp
    have hr : (⟨s.data.drop p.data.length⟩ : String) = r := by
      simpa using h
    subst hr
    apply eq_of_data_eq
    have hpre : p.data <+: s.data := List.isPrefixOf_iff_prefix.mp hp
    have htake : p.data = s.data.take p.data.length :=
      List.prefix_iff_eq_take.mp hpre
    calc s.data = s.data.take p.data.length ++ s.data.drop p.data.length :=
          (List.take_append_drop _ _).symm
      _ = (p ++ ⟨s.data.drop p.data.length⟩ : String).data := by
          rw [String.data_append, ← htake]
  · exact absurd h (by simp)

theorem docTypeOfName_inv {s : String} {dt : DocType}
    (h : docTypeOfName s = some dt) : docTypeName dt = s := by
  unfold docTypeOfName at h
  split_ifs at h with h1 h2 h3 h4 h5
  · injection h with h'; subst h'; subst h1; rfl
  · injection h with h'; subst h'; subst h2; rfl
  · injection h with h'; subst h'; subst h3; rfl
  · injection h with h'; subst h'; subst h4; rfl
  · injection h with h'; subst h'; subst h5; rfl

theorem phaseOfName_inv {s : String} {p : Phase}
    (h : phaseOfName s = some p) : phaseName p = s := by
  unfold phaseOfName at h
  split_ifs at h with h1 h2 h3 h4 h5 h6
  · injection h with h'; subst h'; subst h1; rfl
  · injection h with h'; subst h'; subst h2; rfl
  · injection h with h'; subst h'; subst h3; rfl
  · injection h with h'; subst h'; subst h4; rfl
  · injection h with h'; subst h'; subst h5; rfl
  · injection h with h'; subst h'; subst h6; rfl

theorem riskOfName_inv {s : String} {r : RiskLevel}
    (h : riskOfName s = some r) : riskName r = s := by
  unfold riskOfName at h
  split_ifs at h with h1 h2 h3
  · injection h with h'; subst h'; subst h1; rfl
  · injection h with h'; subst h'; subst h2; rfl
  · injection h with h'; subst h'; subst h3; rfl

theorem parseType_eq {ls : Raw} {dt : DocType} {rest : Raw}
    (h : parseType ls = .ok (dt, rest)) :
    ls = ("type: " ++ docTypeName dt) :: rest := by
  unfold parseType at h
  split at h
  · exact absurd h (by simp)
  · rename_i l rest'
    split at h
    · exact absurd h (by simp)
    · rename_i v hv
      split at h
      · exact absurd h (by simp)
      · rename_i dt' hdt
        obtain ⟨rfl, rfl⟩ : dt' = dt ∧ rest' = rest := by
          simpa using h
        rw [docTypeOfName_inv hdt, ← dropMarker_eq hv]

theorem parsePhase_eq {dt : DocType} {ls : Raw} {p : Phase} {rest : Raw}
    (h : parsePhase dt ls = .ok (p, rest)) :
    ls = ("phase: " ++ phaseName p) :: rest := by
  unfold parsePhase at h
  split at h
  · exact absurd h (by simp)
  · rename_i l rest'
    split at h
    · exact absurd h (by simp)
    · rename_i v hv
      split at h
      · rename_i p' hp
        split at h
        · obtain ⟨rfl, rfl⟩ : p' = p ∧ rest' = rest := by
            simpa using h
          rw [phaseOfName_inv hp, ← dropMarker_eq hv]
        · exact absurd h (by simp)
      · exact absurd h (by simp)

theorem parseTitle_eq {ls : Raw} {ti : String} {rest : Raw}
    (h : parseTitle ls = .ok (ti, rest)) :
    ls = ("title: " ++ ti) :: rest := by
  unfold parseTitle at h
  split at h
  · exact absurd h (by simp)
  · rename_i l rest'
    split at h
    · exact absurd h (by simp)
    · rename_i v hv
      obtain ⟨rfl, rfl⟩ : v = ti ∧ rest' = rest := by
        simpa using h
      rw [← dropMarker_eq hv]

theorem parseRisk_eq {ls : Raw} {rk : Option RiskLevel} {rest : Raw}
    (h : parseRisk ls = (rk, rest)) :
    ls = riskLines rk ++ rest := by
  unfold parseRisk at h
  split at h
  · obtain ⟨rfl, rfl⟩ : rk = none ∧ rest = [] := by
      simpa using h.symm
    simp [riskLines]
  · rename_i l rest'
    split at h
    · rename_i v hv
      split at h
      · rename_i r hr
        obtain ⟨rfl, rfl⟩ : rk = some r ∧ rest = rest' := by
          simpa using h.symm
        simp [riskLines, riskOfName_inv hr, ← dropMarker_eq hv]
      · obtain ⟨rfl, rfl⟩ : rk = none ∧ rest = l :: rest' := by
          simpa using h.symm
        simp [riskLines]
    · obtain ⟨rfl, rfl⟩ : rk = none ∧ rest = l :: rest' := by
        simpa using h.symm
      simp [riskLines]

end Metis

namespace Metis

theorem serializeCriterion_false (t : String) :
    serializeCriterion ⟨t, false⟩ = "- [ ] " ++ t := rfl

theorem serializeCriterion_true (t : String) :
    serializeCriterion ⟨t, true⟩ = "- [x] " ++ t := rfl

theorem parseCriteria_eq : ∀ {ls : Raw} {cs : List Criterion} {rest : Raw},
    parseCriteria ls = .ok (cs, rest) →
    ls = cs.map serializeCriterion ++ rest := by
  intro ls
  induction ls with
  | nil =>
    intro cs rest h
    obtain ⟨rfl, rfl⟩ : cs = [] ∧ rest = [] := by
      simpa [parseCriteria] using h.symm
    simp
  | cons l ls ih =>
    intro cs rest h
    unfold parseCriteria at h
    split at h
    · rename_i t hv
      split at h
      · rename_i cs' r' hrec
        obtain ⟨rfl, rfl⟩ : cs = ⟨t, false⟩ :: cs' ∧ rest = r' := by
          simpa using h.symm
        have := ih hrec
        simp [this, serializeCriterion_false, ← dropMarker_eq hv]
      · exact absurd h (by simp)
    · split at h
      · rename_i t hv
        split at h
        · rename_i cs' r' hrec
          obtain ⟨rfl, rfl⟩ : cs = ⟨t, true⟩ :: cs' ∧ rest = r' := by
            simpa using h.symm
          have := ih hrec
          simp [this, serializeCriterion_true, ← dropMarker_eq hv]
        · exact absurd h (by simp)
      · split at h
        · exact absurd h (by simp)
        · obtain ⟨rfl, rfl⟩ : cs = [] ∧ rest = l :: ls := by
            simpa using h.symm
          simp

theorem parseBlocked_eq : ∀ {ls : Raw} {bs : List String} {rest : Raw},
    parseBlocked ls = (bs, rest) →
    ls = bs.map (fun r => "blocked: " ++ r) ++ rest := by
  intro ls
  induction ls with
  | nil =>
    intro bs rest h
    obtain ⟨rfl, rfl⟩ : bs = [] ∧ rest = [] := by
      simpa [parseBlocked] using h.symm
    simp
  | cons l ls ih =>
    intro bs rest h
    unfold parseBlocked at h
    split at h
    · rename_i r hv
      rcases hrec : parseBlocked ls with ⟨bs', rem⟩
      rw [hrec] at h
      obtain ⟨rfl, rfl⟩ : bs = r :: bs' ∧ rest = rem := by
        simpa using h.symm
      simp [ih hrec, dropMarker_eq hv]
    · obtain ⟨rfl, rfl⟩ : bs = [] ∧ rest = l :: ls := by
        simpa using h.symm
      simp

theorem parseTail_eq : ∀ {ls t rest : Raw}, parseTail ls = (t, rest) →
    ls = t ++ rest ∧
      (rest = [] ∨ ∃ l rest' hh, rest = l :: rest' ∧ dropMarker "## " l = some hh) := by
  intro ls
  induction ls with
  | nil =>
    intro t rest h
    obtain ⟨rfl, rfl⟩ : t = [] ∧ rest = [] := by
      simpa [parseTail] using h.symm
    exact ⟨by simp, Or.inl rfl⟩
  | cons l ls ih =>
    intro t rest h
    unfold parseTail at h
    split at h
    · rename_i hl
      obtain ⟨rfl, rfl⟩ : t = [] ∧ rest = l :: ls := by
        simpa using h.symm
      refine ⟨by simp, Or.inr ?_⟩
      obtain ⟨hh, hhh⟩ := Option.isSome_iff_exists.mp hl
      exact ⟨l, ls, hh, rfl, hhh⟩
    · rcases hrec : parseTail ls with ⟨t', rem⟩
      rw [hrec] at h
      obtain ⟨rfl, rfl⟩ : t = l :: t' ∧ rest = rem := by
        simpa using h.symm
      obtain ⟨h1, h2⟩ := ih hrec
      exact ⟨by simp [h1], h2⟩

theorem parseSectionsAux_serialize : ∀ (ls : Raw) (cur : DocSection),
    ((parseSectionsAux cur ls).map serializeSection).flatten =
      serializeSection cur ++ ls := by
  intro ls
  induction ls with
  | nil =>
    intro cur
    simp [parseSectionsAux]
  | cons l ls ih =>
    intro cur
    unfold parseSectionsAux
    split
    · rename_i hh hv
      simp only [List.map_cons, List.flatten_cons, ih]
      simp [serializeSection, dropMarker_eq hv]
    · rw [ih]
      simp [serializeSection]

theorem parseSections_serialize {ls : Raw}
    (h : ls = [] ∨ ∃ l rest' hh, ls = l :: rest' ∧ dropMarker "## " l = some hh) :
    ((parseSections ls).map serializeSection).flatten = ls := by
  rcases h with rfl | ⟨l, rest', hh, rfl, hv⟩
  · simp [parseSections]
  · unfold parseSections
    simp only [hv]
    rw [parseSectionsAux_serialize]
    simp [serializeSection, dropMarker_eq hv]

end Metis

namespace Metis

theorem parse_ok_inv {id : String} {ls : Raw} {doc : Document}
    (h : parse id ls = .ok doc) :
    ∃ dt ls1 ph ls2 ti ls3 rk ls4 cs ls5 bs ls6 tl ls7,
      parseType ls = .ok (dt, ls1) ∧ parsePhase dt ls1 = .ok (ph, ls2) ∧
      parseTitle ls2 = .ok (ti, ls3) ∧ parseRisk ls3 = (rk, ls4) ∧
      parseCriteria ls4 = .ok (cs, ls5) ∧ parseBlocked ls5 = (bs, ls6) ∧
      parseTail ls6 = (tl, ls7) ∧
      doc = { id := id, docType := dt, phase := ph, title := ti, riskLevel := rk,
              exitCriteria := cs, blockedBy := bs, rawTail := tl,
              sections := parseSections ls7 } := by
  unfold parse at h
  split at h
  · exact absurd h (by simp)
  · rename_i dt ls1 hT
    split at h
    · exact absurd h (by simp)
    · rename_i ph ls2 hP
      split at h
      · exact absurd h (by simp)
      · rename_i ti ls3 hTi
        split at h
        rename_i rk ls4 hR
        split at h
        · exact absurd h (by simp)
        · rename_i cs ls5 hC
          split at h
          rename_i bs ls6 hB
          split at h
          rename_i tl ls7 hTl
          refine ⟨dt, ls1, ph, ls2, ti, ls3, rk, ls4, cs, ls5, bs, ls6, tl, ls7,
            hT, hP, hTi, hR, hC, hB, hTl, ?_⟩
          simpa using h.symm

theorem serialize_parse {id : String} {ls : Raw} {doc : Document}
    (h : parse id ls = .ok doc) : serialize doc = ls := by
  obtain ⟨dt, ls1, ph, ls2, ti, ls3, rk, ls4, cs, ls5, bs, ls6, tl, ls7,
    hT, hP, hTi, hR, hC, hB, hTl, rfl⟩ := parse_ok_inv h
  have e1 := parseType_eq hT
  have e2 := parsePhase_eq hP
  have e3 := parseTitle_eq hTi
  have e4 := parseRisk_eq hR
  have e5 := parseCriteria_eq hC
  have e6 := parseBlocked_eq hB
  obtain ⟨e7, hOk⟩ := parseTail_eq hTl
  have e8 := parseSections_serialize hOk
  subst e1 e2 e3 e4 e5 e6 e7
  simp [serialize, serializeMeta, serializeRest, e8, List.append_assoc]

theorem replaceInSections_some {hd : String} {nb : List String}
    {ss ss' : List DocSection} (h : replaceInSections hd nb ss = some ss') :
    ∃ pre old post,
      ss = pre ++ ⟨hd, old⟩ :: post ∧
      ss' = pre ++ ⟨hd, nb⟩ :: post ∧
      ∀ s ∈ pre, s.heading ≠ hd := by
  induction ss generalizing ss' with
  | nil => exact absurd h (by simp [replaceInSections])
  | cons s ss ih =>
    unfold replaceInSections at h
    split at h
    · rename_i hhd
      obtain rfl : { heading := s.heading, body := nb } :: ss = ss' := by
        simpa using h
      exact ⟨[], s.body, ss, by simp [← hhd], by simp [← hhd], by simp⟩
    · rename_i hhd
      split at h
      · rename_i ss₀ hrec
        obtain rfl : s :: ss₀ = ss' := by simpa using h
        obtain ⟨pre, old, post, hss, hss', hpre⟩ := ih hrec
        refine ⟨s :: pre, old, post, by simp [hss], by simp [hss'], ?_⟩
        intro x hx
        rcases List.mem_cons.mp hx with rfl | hx
        · exact hhd
        · exact hpre x hx
      · exact absurd h (by simp)

theorem replaceInSections_none {hd : String} {nb : List String}
    {ss : List DocSection} :
    replaceInSections hd nb ss = none ↔ ∀ s ∈ ss, s.heading ≠ hd := by
  induction ss with
  | nil => simp [replaceInSections]
  | cons s ss ih =>
    unfold replaceInSections
    constructor
    · intro h x hx
      split at h
      · exact absurd h (by simp)
      · rename_i hhd
        rcases List.mem_cons.mp hx with rfl | hx
        · exact hhd
        · split at h
          · exact absurd h (by simp)
          · exact ih.mp (by assumption) x hx
    · intro hall
      have hs : s.heading ≠ hd := hall s (by simp)
      rw [if_neg hs]
      have : replaceInSections hd nb ss = none :=
        ih.mpr (fun x hx => hall x (List.mem_cons_of_mem _ hx))
      simp [this]

end Metis

namespace Metis

/-- C1: for every raw text that the Codec parses successfully into a
Document, serializing that Document with no intervening mutation yields
output byte-identical to the original raw text, and
`parse(serialize(parse(raw)))` equals `parse(raw)`; after a targeted
mutation (`replaceSection`, `setCriterion`), serialization reproduces the
exact original formatting of every field that was not mutated, changing only
the targeted field/section. -/
theorem roundtrip_fidelity (id : String) (raw : Raw) (doc : Document)
    (h : parse id raw = .ok doc) :
    serialize doc = raw
    ∧ parse id (serialize doc) = parse id raw
    ∧ (∀ hd nb d', replaceSection doc hd nb = .ok d' →
        ∃ pre old post,
          serialize doc = pre ++ (("## " ++ hd) :: old) ++ post ∧
          serialize d' = pre ++ (("## " ++ hd) :: nb) ++ post)
    ∧ (∀ t c, serialize (setCriterion doc t c) =
        serializeMeta doc
          ++ (setCriterion doc t c).exitCriteria.map serializeCriterion
          ++ serializeRest doc) := by
  have hser : serialize doc = raw := serialize_parse h
  refine ⟨hser, by rw [hser], ?_, ?_⟩
  · intro hd nb d' hrep
    unfold replaceSection at hrep
    split at hrep
    · rename_i ss' hss
      obtain rfl : { doc with sections := ss' } = d' := by
        simpa using hrep
      obtain ⟨pre, old, post, hsecs, hsecs', _⟩ := replaceInSections_some hss
      refine ⟨serializeMeta doc ++ doc.exitCriteria.map serializeCriterion
          ++ doc.blockedBy.map (fun r => "blocked: " ++ r) ++ doc.rawTail
          ++ (pre.map serializeSection).flatten,
        old, (post.map serializeSection).flatten, ?_, ?_⟩
      · conv_lhs => rw [serialize, serializeRest, hsecs]
        simp [serializeSection, List.append_assoc]
      · conv_lhs => rw [serialize, serializeRest]
        simp only []
        rw [hsecs']
        simp [serializeSection, List.append_assoc]
        rfl
    · exact absurd hrep (by simp)
  · intro t c
    unfold setCriterion serialize serializeMeta serializeRest riskLines
    split <;> rfl

end Metis

namespace Metis

/-- Witness for C1 at a concrete stored document. -/
theorem roundtrip_fidelity_witness : serialize exampleDoc = exampleRaw :=
  (roundtrip_fidelity "vision.md" exampleRaw exampleDoc (by decide)).1

/-- C4: for every document containing a section whose heading exactly and
case-sensitively equals the given heading, `replaceSection` changes only that
section's body: the heading text, every other section and their order, the
title, phase and exit criteria are unchanged; when no exact heading match
exists it fails with `EditError.headingNotFound`. -/
theorem replaceSection_isolation (d : Document) (hd : String) (nb : List String) :
    (replaceSection d hd nb = .error .headingNotFound ↔
      ∀ s ∈ d.sections, s.heading ≠ hd)
    ∧ (∀ d', replaceSection d hd nb = .ok d' →
        d'.id = d.id ∧ d'.docType = d.docType ∧ d'.phase = d.phase ∧
        d'.title = d.title ∧ d'.riskLevel = d.riskLevel ∧
        d'.exitCriteria = d.exitCriteria ∧ d'.blockedBy = d.blockedBy ∧
        d'.rawTail = d.rawTail ∧
        d'.sections.map (fun s => s.heading) = d.sections.map (fun s => s.heading) ∧
        ∃ pre old post,
          d.sections = pre ++ ⟨hd, old⟩ :: post ∧
          d'.sections = pre ++ ⟨hd, nb⟩ :: post ∧
          ∀ s ∈ pre, s.heading ≠ hd) := by
  constructor
  · have hiff : (replaceSection d hd nb = .error .headingNotFound) ↔
        replaceInSections hd nb d.sections = none := by
      unfold replaceSection
      cases hss : replaceInSections hd nb d.sections <;> simp
    exact hiff.trans replaceInSections_none
  · intro d' hrep
    unfold replaceSection at hrep
    split at hrep
    · rename_i ss' hss
      obtain rfl : { d with sections := ss' } = d' := by
        simpa using hrep
      obtain ⟨pre, old, post, hsecs, hsecs', hpre⟩ := replaceInSections_some hss
      refine ⟨rfl, rfl, rfl, rfl, rfl, rfl, rfl, rfl, ?_,
        pre, old, post, hsecs, by simpa using hsecs', hpre⟩
      simp only []
      rw [hsecs, hsecs']
      simp
    · exact absurd hrep (by simp)

/-- Witness for C4 at a concrete document and section. -/
theorem replaceSection_isolation_witness :
    replaceSection exampleDoc "Purpose" ["X"] = .ok exampleDocReplaced ∧
    exampleDocReplaced.exitCriteria = exampleDoc.exitCriteria ∧
    exampleDocReplaced.title = exampleDoc.title ∧
    exampleDocReplaced.phase = exampleDoc.phase := by
  have hrep : replaceSection exampleDoc "Purpose" ["X"] = .ok exampleDocReplaced := by
    decide
  have hfr := (replaceSection_isolation exampleDoc "Purpose" ["X"]).2
    exampleDocReplaced hrep
  exact ⟨hrep, hfr.2.2.2.2.2.1, hfr.2.2.2.1, hfr.2.2.1⟩

end Metis

namespace Metis

theorem blockerResolved_iff {idx : ProjectIndex} {r : String} :
    blockerResolved idx r = true ↔
      ∃ e, lookupIndex idx r = some e ∧ resolvedPhase e.docType e.phase = true := by
  unfold blockerResolved
  cases h : lookupIndex idx r <;> simp

/-- C2: for every document and target phase, the pure, read-only
`checkTransition` reports `allowed = true` iff (a) the target is a direct
successor of the document's phase in its type's graph, (b) every exit
criterion is completed and (c) every `blocked_by` reference resolves via the
Project Index to a document whose phase is resolved for its type; a missing
or unresolvable reference is counted among `unresolvedBlockers` (the function
is total and returns a report, never an error). -/
theorem checkTransition_allowed_iff (idx : ProjectIndex) (d : Document)
    (t : Phase) :
    ((checkTransition idx d t).allowed = true ↔
      (t ∈ successors d.docType d.phase
        ∧ (∀ c ∈ d.exitCriteria, c.completed = true)
        ∧ (∀ r ∈ d.blockedBy, ∃ e, lookupIndex idx r = some e
            ∧ resolvedPhase e.docType e.phase = true)))
    ∧ (∀ r, r ∈ (checkTransition idx d t).unresolvedBlockers ↔
        (r ∈ d.blockedBy ∧
          ¬∃ e, lookupIndex idx r = some e ∧ resolvedPhase e.docType e.phase = true))
    ∧ (∀ r ∈ d.blockedBy, lookupIndex idx r = none →
        r ∈ (checkTransition idx d t).unresolvedBlockers) := by
  refine ⟨?_, ?_, ?_⟩
  · simp only [checkTransition, Bool.and_eq_true, decide_eq_true_eq,
      List.isEmpty_iff, List.map_eq_nil_iff, List.filter_eq_nil_iff]
    constructor
    · rintro ⟨⟨hadj, hcrit⟩, hblock⟩
      refine ⟨hadj, ?_, ?_⟩
      · intro c hc
        have := hcrit c hc
        simpa using this
      · intro r hr
        have := hblock r hr
        exact blockerResolved_iff.mp (by simpa using this)
    · rintro ⟨hadj, hcrit, hblock⟩
      refine ⟨⟨hadj, ?_⟩, ?_⟩
      · intro c hc
        simpa using hcrit c hc
      · intro r hr
        simpa using blockerResolved_iff.mpr (hblock r hr)
  · intro r
    simp only [checkTransition, List.mem_filter, Bool.not_eq_true']
    constructor
    · rintro ⟨hr, hres⟩
      refine ⟨hr, fun hex => ?_⟩
      rw [blockerResolved_iff.mpr hex] at hres
      exact Bool.noConfusion hres
    · rintro ⟨hr, hex⟩
      refine ⟨hr, ?_⟩
      cases hres : blockerResolved idx r
      · rfl
      · exact absurd (blockerResolved_iff.mp hres) hex
  · intro r hr hnone
    simp only [checkTransition, List.mem_filter, Bool.not_eq_true']
    refine ⟨hr, ?_⟩
    unfold blockerResolved
    rw [hnone]

/-- Witness for C2: the example document is gated by its incomplete
criterion, and a reference missing from the index is reported among the
unresolved blockers. -/
theorem checkTransition_allowed_iff_witness :
    (checkTransition [] exampleDoc .review).allowed = false ∧
    "[[Strategy Document]]" ∈ (checkTransition [] exampleDoc .review).unresolvedBlockers := by
  constructor
  · cases hall : (checkTransition [] exampleDoc .review).allowed
    · rfl
    · obtain ⟨_, hcrit, _⟩ :=
        (checkTransition_allowed_iff [] exampleDoc .review).1.mp hall
      have := hcrit ⟨"Define scope", false⟩ (by decide)
      exact absurd this (by decide)
  · exact (checkTransition_allowed_iff [] exampleDoc .review).2.2
      "[[Strategy Document]]" (by decide) (by decide)

/-- C3: `transition` with `force = true` succeeds despite unmet exit criteria
and unresolved blockers when the target is a direct successor; a non-adjacent
target fails with `TransitionError.illegalPhase` even with `force = true`;
without force, unmet gates produce `TransitionError.gateFailed` carrying the
unmet criteria and the unresolved blockers; on success only `phase`
changes. -/
theorem transition_force_and_gates (idx : ProjectIndex) (d : Document)
    (t : Phase) :
    (t ∈ successors d.docType d.phase →
      transition idx d t true = .ok { d with phase := t })
    ∧ (t ∉ successors d.docType d.phase →
      ∀ force, transition idx d t force = .error .illegalPhase)
    ∧ (t ∈ successors d.docType d.phase →
      ¬((d.exitCriteria.filter (fun c => !c.completed)).map (fun c => c.text) = []
          ∧ d.blockedBy.filter (fun r => !blockerResolved idx r) = []) →
      transition idx d t false = .error (.gateFailed
        ((d.exitCriteria.filter (fun c => !c.completed)).map (fun c => c.text))
        (d.blockedBy.filter (fun r => !blockerResolved idx r)))) := by
  refine ⟨?_, ?_, ?_⟩
  · intro hadj
    simp [transition, hadj]
  · intro hnadj force
    simp [transition, hnadj]
  · intro hadj hgate
    have hne : ¬((checkTransition idx d t).unmetCriteria.isEmpty
        && (checkTransition idx d t).unresolvedBlockers.isEmpty) = true := by
      simp only [checkTransition, Bool.and_eq_true, List.isEmpty_iff]
      exact fun hc => hgate ⟨hc.1, hc.2⟩
    simp only [transition, Bool.false_or]
    rw [if_pos (show decide (t ∈ successors d.docType d.phase) = true by
          simpa using hadj),
      if_neg hne]
    rfl

/-- Witness for C3: forcing past the unmet criterion succeeds, a non-adjacent
jump fails even when forced, and an unforced gated transition reports the
gate failure. -/
theorem transition_force_and_gates_witness :
    transition [] exampleDoc .review true = .ok { exampleDoc with phase := .review }
    ∧ transition [] exampleDoc .published true = .error .illegalPhase
    ∧ transition [] exampleDoc .review false = .error (.gateFailed
        ["Define scope"] ["[[Strategy Document]]"]) := by
  refine ⟨(transition_force_and_gates [] exampleDoc .review).1 (by decide),
    (transition_force_and_gates [] exampleDoc .published).2.1 (by decide) true, ?_⟩
  have h := (transition_force_and_gates [] exampleDoc .review).2.2 (by decide)
    (by decide)
  rw [h]
  rfl

end Metis

namespace Metis

theorem setMap_text (l : List Criterion) (t : String) (b : Bool) :
    (l.map (fun c => if c.text == t then { c with completed := b } else c)).map
        (fun c => c.text)
      = l.map (fun c => c.text) := by
  induction l with
  | nil => simp
  | cons c l ih =>
    simp only [List.map_cons, ih]
    cases hbe : c.text == t <;> simp [hbe]

theorem setMap_id (l : List Criterion) (t : String) (b : Bool)
    (h : l.any (fun c => c.text == t) = false) :
    l.map (fun c => if c.text == t then { c with completed := b } else c) = l := by
  induction l with
  | nil => simp
  | cons c l ih =>
    simp only [List.any_cons, Bool.or_eq_false_iff] at h
    simp only [List.map_cons, ih h.2]
    rw [if_neg (by simp [h.1])]

theorem setMap_idem (l : List Criterion) (t : String) (b : Bool) :
    ((l.map (fun c => if c.text == t then { c with completed := b } else c)).map
        (fun c => if c.text == t then { c with completed := b } else c))
      = l.map (fun c => if c.text == t then { c with completed := b } else c) := by
  induction l with
  | nil => simp
  | cons c l ih =>
    simp only [List.map_cons, ih]
    cases hbe : c.text == t <;> simp [hbe]

theorem any_setMap (l : List Criterion) (t : String) (b : Bool) :
    (l.map (fun c => if c.text == t then { c with completed := b } else c)).any
        (fun c => c.text == t)
      = l.any (fun c => c.text == t) := by
  induction l with
  | nil => simp
  | cons c l ih =>
    simp only [List.map_cons, List.any_cons, ih]
    cases hbe : c.text == t <;> simp [hbe]

/-- C5: `setCriterion` is an idempotent upsert — applying it twice yields the
same document as applying it once; an absent text is appended as a new
criterion with the given completion value (not an error); criteria stay
unique by text, a repeated text toggles the existing entry rather than
duplicating it. -/
theorem setCriterion_upsert (d : Document) (t : String) (b : Bool) :
    setCriterion (setCriterion d t b) t b = setCriterion d t b
    ∧ (d.exitCriteria.any (fun c => c.text == t) = false →
        (setCriterion d t b).exitCriteria = d.exitCriteria ++ [⟨t, b⟩])
    ∧ (d.exitCriteria.any (fun c => c.text == t) = true →
        (setCriterion d t b).exitCriteria.map (fun c => c.text)
          = d.exitCriteria.map (fun c => c.text))
    ∧ ((d.exitCriteria.map (fun c => c.text)).Nodup →
        ((setCriterion d t b).exitCriteria.map (fun c => c.text)).Nodup) := by
  refine ⟨?_, ?_, ?_, ?_⟩
  · by_cases hp : d.exitCriteria.any (fun c => c.text == t) = true
    · have h1 : setCriterion d t b = { d with exitCriteria :=
          (d.exitCriteria.map (fun c =>
            if c.text == t then { c with completed := b } else c)) } := by
        unfold setCriterion
        rw [if_pos hp]
      rw [h1]
      unfold setCriterion
      rw [if_pos (by simpa using (any_setMap d.exitCriteria t b).trans hp)]
      simp only [Document.mk.injEq, and_true, true_and]
      exact setMap_idem d.exitCriteria t b
    · have hp' : d.exitCriteria.any (fun c => c.text == t) = false := by
        simpa using hp
      have h1 : setCriterion d t b =
          { d with exitCriteria := (d.exitCriteria ++ [⟨t, b⟩]) } := by
        unfold setCriterion
        rw [if_neg hp]
      rw [h1]
      unfold setCriterion
      rw [if_pos (by simp)]
      simp only [Document.mk.injEq, and_true, true_and]
      show (d.exitCriteria ++ [(⟨t, b⟩ : Criterion)]).map
          (fun c => if c.text == t then { c with completed := b } else c)
        = d.exitCriteria ++ [⟨t, b⟩]
      rw [List.map_append, setMap_id _ _ _ hp']
      simp
  · intro hp
    unfold setCriterion
    rw [if_neg (by simp [hp])]
  · intro hp
    unfold setCriterion
    rw [if_pos hp]
    simpa using setMap_text d.exitCriteria t b
  · intro hnd
    by_cases hp : d.exitCriteria.any (fun c => c.text == t) = true
    · unfold setCriterion
      rw [if_pos hp]
      show ((d.exitCriteria.map (fun c =>
          if c.text == t then { c with completed := b } else c)).map
            (fun c => c.text)).Nodup
      rw [setMap_text]
      exact hnd
    · have hp' : d.exitCriteria.any (fun c => c.text == t) = false := by
        simpa using hp
      have hni : t ∉ d.exitCriteria.map (fun c => c.text) := by
        intro hmem
        obtain ⟨c, hc, hct⟩ := List.mem_map.mp hmem
        have : d.exitCriteria.any (fun c => c.text == t) = true :=
          List.any_eq_true.mpr ⟨c, hc, by simp [hct]⟩
        simp [this] at hp'
      unfold setCriterion
      rw [if_neg hp]
      simp only [List.map_append]
      rw [List.nodup_append]
      refine ⟨hnd, by simp, ?_⟩
      intro x hx hx1
      simp only [List.map_cons, List.map_nil, List.mem_singleton] at hx1
      exact hni (hx1 ▸ hx)

/-- Witness for C5 at a concrete document: the absent text is appended, and
re-applying is the identity. -/
theorem setCriterion_upsert_witness :
    setCriterion (setCriterion exampleDoc "New item" true) "New item" true
      = setCriterion exampleDoc "New item" true
    ∧ (setCriterion exampleDoc "New item" true).exitCriteria
      = exampleDoc.exitCriteria ++ [⟨"New item", true⟩] := by
  refine ⟨(setCriterion_upsert exampleDoc "New item" true).1, ?_⟩
  exact (setCriterion_upsert exampleDoc "New item" true).2.1 (by decide)

end Metis

namespace Metis

theorem mem_dedupRefs : ∀ (rs seen : List String) (r : String),
    r ∈ dedupRefs seen rs ↔ (r ∈ rs ∧ r ∉ seen) := by
  intro rs
  induction rs with
  | nil =>
    intro seen r
    simp [dedupRefs]
  | cons r' rs ih =>
    intro seen r
    unfold dedupRefs
    by_cases hc : seen.contains r'
    · rw [if_pos hc]
      rw [ih]
      have hr' : r' ∈ seen := by
        simpa using hc
      constructor
      · rintro ⟨h1, h2⟩
        exact ⟨List.mem_cons_of_mem _ h1, h2⟩
      · rintro ⟨h1, h2⟩
        rcases List.mem_cons.mp h1 with rfl | h1
        · exact absurd hr' h2
        · exact ⟨h1, h2⟩
    · rw [if_neg hc]
      have hr' : r' ∉ seen := by
        simpa using hc
      constructor
      · intro hmem
        rcases List.mem_cons.mp hmem with rfl | hmem
        · exact ⟨List.mem_cons_self _ _, hr'⟩
        · obtain ⟨h1, h2⟩ := (ih (r' :: seen) r).mp hmem
          exact ⟨List.mem_cons_of_mem _ h1,
            fun hs => h2 (List.mem_cons_of_mem _ hs)⟩
      · rintro ⟨h1, h2⟩
        rcases List.mem_cons.mp h1 with rfl | h1
        · exact List.mem_cons_self _ _
        · by_cases hrr : r = r'
          · subst hrr
            exact List.mem_cons_self _ _
          · exact List.mem_cons_of_mem _ ((ih (r' :: seen) r).mpr
              ⟨h1, by simp [hrr, h2]⟩)

theorem nodup_dedupRefs : ∀ (rs seen : List String), (dedupRefs seen rs).Nodup := by
  intro rs
  induction rs with
  | nil =>
    intro seen
    simp [dedupRefs]
  | cons r' rs ih =>
    intro seen
    unfold dedupRefs
    split
    · exact ih seen
    · refine List.Nodup.cons ?_ (ih (r' :: seen))
      intro hmem
      exact ((mem_dedupRefs rs (r' :: seen) r').mp hmem).2 (List.mem_cons_self _ _)

theorem transition_ok_eq {idx : ProjectIndex} {d : Document} {t : Phase}
    {force : Bool} {d' : Document} (h : transition idx d t force = .ok d') :
    d' = { d with phase := t } := by
  unfold transition at h
  split at h
  · dsimp only [] at h
    split at h
    · simpa using h.symm
    · exact absurd h (by simp)
  · exact absurd h (by simp)

/-- C6: `setBlockedBy` replaces the entire `blocked_by` set with the given
references after removing duplicates and any self-reference (a full replace,
never a merge), and the invariant that `blocked_by` never contains a
self-reference holds after every operation on a document. -/
theorem setBlockedBy_replaces (d : Document) (refs : List String) :
    (∀ r, r ∈ (setBlockedBy d refs).blockedBy ↔ (r ∈ refs ∧ r ≠ d.id))
    ∧ (setBlockedBy d refs).blockedBy.Nodup
    ∧ (setBlockedBy d refs).id ∉ (setBlockedBy d refs).blockedBy
    ∧ (∀ t c, d.id ∉ d.blockedBy →
        (setCriterion d t c).id ∉ (setCriterion d t c).blockedBy)
    ∧ (∀ hd nb d', d.id ∉ d.blockedBy → replaceSection d hd nb = .ok d' →
        d'.id ∉ d'.blockedBy)
    ∧ (∀ idx t force d', d.id ∉ d.blockedBy → transition idx d t force = .ok d' →
        d'.id ∉ d'.blockedBy) := by
  have hmem : ∀ r, r ∈ (setBlockedBy d refs).blockedBy ↔ (r ∈ refs ∧ r ≠ d.id) := by
    intro r
    unfold setBlockedBy
    simp only []
    rw [mem_dedupRefs]
    simp [List.mem_filter]
  refine ⟨hmem, nodup_dedupRefs _ _, ?_, ?_, ?_, ?_⟩
  · intro hself
    exact ((hmem d.id).mp hself).2 rfl
  · intro t c hni
    unfold setCriterion
    split <;> exact hni
  · intro hd nb d' hni hrep
    unfold replaceSection at hrep
    split at hrep
    · obtain rfl : { d with sections := _ } = d' := by
        simpa using hrep
      exact hni
    · exact absurd hrep (by simp)
  · intro idx t force d' hni htr
    rw [transition_ok_eq htr]
    exact hni

/-- Witness for C6: duplicates and the self-reference are removed, and the
invariant survives a criterion toggle. -/
theorem setBlockedBy_replaces_witness :
    "a" ∈ (setBlockedBy exampleDoc ["a", "vision.md", "b", "a"]).blockedBy
    ∧ "vision.md" ∉ (setBlockedBy exampleDoc ["a", "vision.md", "b", "a"]).blockedBy
    ∧ (setCriterion exampleDoc "Define scope" true).id
        ∉ (setCriterion exampleDoc "Define scope" true).blockedBy := by
  refine ⟨?_, ?_, ?_⟩
  · exact ((setBlockedBy_replaces exampleDoc ["a", "vision.md", "b", "a"]).1 "a").mpr
      ⟨by decide, by decide⟩
  · intro hmem
    have := ((setBlockedBy_replaces exampleDoc ["a", "vision.md", "b", "a"]).1
      "vision.md").mp hmem
    exact absurd this.2 (by simp [exampleDoc])
  · exact (setBlockedBy_replaces exampleDoc [] ).2.2.2.1 "Define scope" true
      (by decide)

end Metis

namespace Metis

theorem lexLe_total : ∀ a b : List Char, lexLe a b = true ∨ lexLe b a = true
  | [], b => Or.inl rfl
  | a :: as, [] => Or.inr rfl
  | a :: as, b :: bs => by
    unfold lexLe
    rcases Nat.lt_trichotomy a.toNat b.toNat with h | h | h
    · left
      simp [h]
    · have h1 : ¬a.toNat < b.toNat := by omega
      have h2 : ¬b.toNat < a.toNat := by omega
      rcases lexLe_total as bs with ih | ih
      · left
        simp [h1, h2, ih]
      · right
        simp [h1, h2, ih]
    · right
      simp [h]

theorem lexLe_trans : ∀ a b c : List Char,
    lexLe a b = true → lexLe b c = true → lexLe a c = true
  | [], _, _, _, _ => rfl
  | a :: as, [], _, h, _ => by exact absurd h (by simp [lexLe])
  | a :: as, b :: bs, [], _, h2 => by exact absurd h2 (by simp [lexLe])
  | a :: as, b :: bs, c :: cs, h1, h2 => by
    unfold lexLe at h1 h2 ⊢
    by_cases hab : a.toNat < b.toNat <;> by_cases hbc : b.toNat < c.toNat <;>
      by_cases hba : b.toNat < a.toNat <;> by_cases hcb : c.toNat < b.toNat <;>
      simp [hab, hbc, hba, hcb] at h1 h2 ⊢ <;>
      first
        | omega
        | (exact lexLe_trans as bs cs h1 h2)
        | (left; omega)
        | (right; exact ⟨by omega, lexLe_trans as bs cs h1 h2⟩)

theorem rankRel_total : ∀ a b : SearchResult, RankRel a b ∨ RankRel b a := by
  intro a b
  rcases Nat.lt_trichotomy a.score b.score with h | h | h
  · right
    simp [RankRel, rankLE, h]
  · rcases lexLe_total a.id.data b.id.data with hl | hl
    · left
      simp [RankRel, rankLE, h, hl]
    · right
      simp [RankRel, rankLE, h, hl]
  · left
    simp [RankRel, rankLE, h]

theorem rankRel_trans : ∀ a b c : SearchResult,
    RankRel a b → RankRel b c → RankRel a c := by
  intro a b c hab hbc
  simp only [RankRel, rankLE, Bool.or_eq_true, Bool.and_eq_true, beq_iff_eq,
    decide_eq_true_eq] at hab hbc ⊢
  rcases hab with hab | ⟨hab, hab'⟩ <;> rcases hbc with hbc | ⟨hbc, hbc'⟩
  · left
    omega
  · left
    omega
  · left
    omega
  · right
    exact ⟨hab.trans hbc, lexLe_trans _ _ _ hab' hbc'⟩

/-- C7: `search` tokenizes the query on whitespace, scores each document by
the count of query tokens found in its title (weighted) plus its section
bodies, and returns the top `limit` results ordered by descending score then
by document identity: the result holds `min limit #matches` entries, and
together with some leftover `rest` it is a permutation of all positively
scored documents, with every returned result ranking at least as high as
every omitted one; as a pure function it returns the identical ordered list
on repeated calls over the same corpus. -/
theorem search_ranked (corpus : List Document) (query : String) (limit : Nat) :
    search corpus query limit = search corpus query limit
    ∧ List.Sorted RankRel (search corpus query limit)
    ∧ (search corpus query limit).length ≤ limit
    ∧ (search corpus query limit).length
        = min limit (matchingResults corpus query).length
    ∧ (∃ rest, List.Perm (search corpus query limit ++ rest)
          (matchingResults corpus query)
        ∧ ∀ r ∈ search corpus query limit, ∀ m ∈ rest, RankRel r m)
    ∧ (∀ r ∈ search corpus query limit, ∃ d ∈ corpus,
        r.id = d.id ∧ r.score = scoreDoc (tokenize query) d ∧ 0 < r.score)
    ∧ ((matchingResults corpus query).length ≤ limit →
        ∀ d ∈ corpus, 0 < scoreDoc (tokenize query) d →
          SearchResult.mk d.id (scoreDoc (tokenize query) d)
            ∈ search corpus query limit) := by
  have hsorted : List.Sorted RankRel
      (List.insertionSort RankRel (matchingResults corpus query)) := by
    haveI : IsTotal SearchResult RankRel := ⟨rankRel_total⟩
    haveI : IsTrans SearchResult RankRel := ⟨fun a b c => rankRel_trans a b c⟩
    exact List.sorted_insertionSort RankRel _
  refine ⟨rfl, ?_, ?_, ?_, ?_, ?_, ?_⟩
  · exact hsorted.sublist (List.take_sublist _ _)
  · simp [search, List.length_take]
  · unfold search
    rw [List.length_take,
      (List.perm_insertionSort RankRel (matchingResults corpus query)).length_eq]
  · refine ⟨(List.insertionSort RankRel (matchingResults corpus query)).drop limit,
      ?_, ?_⟩
    · unfold search
      rw [List.take_append_drop]
      exact List.perm_insertionSort RankRel _
    · intro r hr m hm
      have hpair : List.Pairwise RankRel
          (List.insertionSort RankRel (matchingResults corpus query)) := hsorted
      rw [← List.take_append_drop limit
        (List.insertionSort RankRel (matchingResults corpus query))] at hpair
      obtain ⟨_, _, hcross⟩ := List.pairwise_append.mp hpair
      exact hcross r hr m hm
  · intro r hr
    have h1 : r ∈ List.insertionSort RankRel (matchingResults corpus query) :=
      (List.take_sublist _ _).subset hr
    have h2 : r ∈ matchingResults corpus query :=
      (List.perm_insertionSort RankRel _).mem_iff.mp h1
    unfold matchingResults at h2
    obtain ⟨hmem, hpos⟩ := List.mem_filter.mp h2
    obtain ⟨d, hd, rfl⟩ := List.mem_map.mp hmem
    exact ⟨d, hd, rfl, rfl, by simpa using hpos⟩
  · intro hlen d hd hpos
    have hmm : SearchResult.mk d.id (scoreDoc (tokenize query) d)
        ∈ matchingResults corpus query := by
      unfold matchingResults
      exact List.mem_filter.mpr ⟨List.mem_map.mpr ⟨d, hd, rfl⟩, by simpa using hpos⟩
    have hlen2 : (List.insertionSort RankRel (matchingResults corpus query)).length
        ≤ limit := by
      rw [(List.perm_insertionSort RankRel _).length_eq]
      exact hlen
    unfold search
    rw [List.take_of_length_le hlen2]
    exact (List.perm_insertionSort RankRel _).mem_iff.mpr hmm

/-- Witness for C7: the spec's determinism example — a title match and a body
match are both returned in the scored order, and truncating to one result
keeps the top-ranked match. -/
theorem search_ranked_witness :
    SearchResult.mk "a.md" 2 ∈ search [exampleDocA, exampleDocB] "alpha" 10
    ∧ search [exampleDocA, exampleDocB] "alpha" 10
        = [⟨"a.md", 2⟩, ⟨"b.md", 1⟩]
    ∧ search [exampleDocA, exampleDocB] "alpha" 1 = [⟨"a.md", 2⟩]
    ∧ (search [exampleDocA, exampleDocB] "alpha" 1).length
        = min 1 (matchingResults [exampleDocA, exampleDocB] "alpha").length := by
  refine ⟨?_, by decide, by decide,
    (search_ranked [exampleDocA, exampleDocB] "alpha" 1).2.2.2.1⟩
  have h := (search_ranked [exampleDocA, exampleDocB] "alpha" 10).2.2.2.2.2.2
    (by decide) exampleDocA (by decide) (by decide)
  simpa using h

end Metis

namespace Metis

theorem listDocs_cons (p : String) (ls : Raw) (files : List (String × Raw)) :
    listDocs ((p, ls) :: files) =
      match listDocs files with
      | (oks, bads) =>
        match parse p ls with
        | .ok d => (summaryOf d :: oks, bads)
        | .error _ => (oks, p :: bads) := rfl

/-- C8: `list` enumerates every parseable document and returns its summaries,
collecting documents that fail Codec parsing into a separate unparseable list
reported alongside the successes; every file is accounted for in exactly one
of the two lists, so a single unparseable document never aborts the call. -/
theorem listDocs_partial_failure (files : List (String × Raw)) :
    (listDocs files).1.length + (listDocs files).2.length = files.length
    ∧ (∀ p ls, (p, ls) ∈ files →
        (∀ d, parse p ls = .ok d → summaryOf d ∈ (listDocs files).1)
        ∧ (∀ e, parse p ls = .error e → p ∈ (listDocs files).2))
    ∧ (∀ s ∈ (listDocs files).1, ∃ p ls d, (p, ls) ∈ files
        ∧ parse p ls = .ok d ∧ s = summaryOf d) := by
  induction files with
  | nil =>
    refine ⟨rfl, ?_, ?_⟩
    · intro p ls h
      exact absurd h (by simp)
    · intro s hs
      exact absurd hs (by simp [listDocs])
  | cons f files ih =>
    obtain ⟨p₀, ls₀⟩ := f
    obtain ⟨ih1, ih2, ih3⟩ := ih
    have hstep : ∀ res, listDocs files = res →
        listDocs ((p₀, ls₀) :: files) =
          match parse p₀ ls₀ with
          | .ok d => (summaryOf d :: res.1, res.2)
          | .error _ => (res.1, p₀ :: res.2) := by
      rintro ⟨oks, bads⟩ hrec
      rw [listDocs_cons, hrec]
    have hstep' := hstep (listDocs files) rfl
    refine ⟨?_, ?_, ?_⟩
    · rw [hstep']
      cases hp : parse p₀ ls₀ <;> simp <;> omega
    · intro p ls hmem
      constructor
      · intro d hd
        rw [hstep']
        rcases List.mem_cons.mp hmem with heq | hmem'
        · obtain ⟨rfl, rfl⟩ : p₀ = p ∧ ls₀ = ls := by
            simpa using heq.symm
          rw [hd]
          simp
        · cases hp : parse p₀ ls₀ with
          | ok d₀ =>
            simp only [hp]
            exact List.mem_cons_of_mem _ ((ih2 p ls hmem').1 d hd)
          | error e₀ =>
            simp only [hp]
            exact (ih2 p ls hmem').1 d hd
      · intro e he
        rw [hstep']
        rcases List.mem_cons.mp hmem with heq | hmem'
        · obtain ⟨rfl, rfl⟩ : p₀ = p ∧ ls₀ = ls := by
            simpa using heq.symm
          rw [he]
          simp
        · cases hp : parse p₀ ls₀ with
          | ok d₀ =>
            simp only [hp]
            exact (ih2 p ls hmem').2 e he
          | error e₀ =>
            simp only [hp]
            exact List.mem_cons_of_mem _ ((ih2 p ls hmem').2 e he)
    · intro s hs
      rw [hstep'] at hs
      cases hp : parse p₀ ls₀ with
      | ok d =>
        simp only [hp] at hs
        rcases List.mem_cons.mp hs with rfl | hs'
        · exact ⟨p₀, ls₀, d, by simp, hp, rfl⟩
        · obtain ⟨p, ls, d', hmem, hploc, rfl⟩ := ih3 s hs'
          exact ⟨p, ls, d', List.mem_cons_of_mem _ hmem, hploc, rfl⟩
      | error e =>
        simp only [hp] at hs
        obtain ⟨p, ls, d', hmem, hploc, rfl⟩ := ih3 s hs
        exact ⟨p, ls, d', List.mem_cons_of_mem _ hmem, hploc, rfl⟩

/-- Witness for C8: one parseable and one unparseable file — the good file is
summarized, the bad one lands in the unparseable list, both accounted for. -/
theorem listDocs_partial_failure_witness :
    summaryOf exampleDoc
      ∈ (listDocs [("vision.md", exampleRaw), ("bad.md", ["no type line"])]).1
    ∧ "bad.md" ∈ (listDocs [("vision.md", exampleRaw), ("bad.md", ["no type line"])]).2
    ∧ (listDocs [("vision.md", exampleRaw), ("bad.md", ["no type line"])]).1.length
        + (listDocs [("vision.md", exampleRaw), ("bad.md", ["no type line"])]).2.length
        = 2 := by
  refine ⟨?_, ?_,
    (listDocs_partial_failure [("vision.md", exampleRaw), ("bad.md", ["no type line"])]).1⟩
  · exact ((listDocs_partial_failure
        [("vision.md", exampleRaw), ("bad.md", ["no type line"])]).2.1
        "vision.md" exampleRaw (by simp)).1 exampleDoc (by decide)
  · exact ((listDocs_partial_failure
        [("vision.md", exampleRaw), ("bad.md", ["no type line"])]).2.1
        "bad.md" ["no type line"] (by simp)).2 .missingType (by decide)

/-- C9: the test-harness `send_mcp_request` returns the parsed JSON value when
the stripped stdout decodes, and `None` otherwise; the decode failure is
caught, never propagated to the caller. -/
theorem send_mcp_request_catches {ε α : Type} (loads : String → Except ε α)
    (stdout : String) :
    (∀ j, loads ⟨stripChars stdout.data⟩ = .ok j →
      send_mcp_request loads stdout = some j)
    ∧ (∀ e, loads ⟨stripChars stdout.data⟩ = .error e →
      send_mcp_request loads stdout = none)
    ∧ ((send_mcp_request loads stdout).isSome ↔
      ∃ j, loads ⟨stripChars stdout.data⟩ = .ok j) := by
  refine ⟨?_, ?_, ?_⟩
  · intro j hj
    unfold send_mcp_request
    rw [hj]
  · intro e he
    unfold send_mcp_request
    rw [he]
  · unfold send_mcp_request
    cases h : loads ⟨stripChars stdout.data⟩ <;> simp

/-- Witness for C9 at a concrete decoder and stdout. -/
theorem send_mcp_request_catches_witness :
    send_mcp_request
      (fun s => if s = "{}" then Except.ok 7 else Except.error "bad") "  {}  "
      = some 7
    ∧ send_mcp_request
      (fun s => if s = "{}" then Except.ok 7 else Except.error "bad") "garbage"
      = none := by
  constructor
  · exact (send_mcp_request_catches
      (fun s => if s = "{}" then Except.ok 7 else Except.error "bad") "  {}  ").1
      7 (by decide)
  · exact (send_mcp_request_catches
      (fun s => if s = "{}" then Except.ok 7 else Except.error "bad") "garbage").2.1
      "bad" (by decide)

/-- C10: `run_tests` runs the crate suites in the fixed order
metis-docs-core, metis-docs-cli, metis-docs-mcp and stops at the first
failure, exiting with that crate's exit code; a later crate's suite is never
run after an earlier one has failed. -/
theorem run_tests_stops_at_first_failure :
    crate_configs.map (fun c => c.name)
      = ["metis-docs-core", "metis-docs-cli", "metis-docs-mcp"]
    ∧ (∀ runner code, runner "metis-docs-core" = .failed code →
        run_tests runner = (["metis-docs-core"], some code))
    ∧ (∀ runner code, runner "metis-docs-core" = .passed →
        runner "metis-docs-cli" = .failed code →
        run_tests runner = (["metis-docs-core", "metis-docs-cli"], some code))
    ∧ (∀ runner code, runner "metis-docs-core" = .passed →
        runner "metis-docs-cli" = .passed →
        runner "metis-docs-mcp" = .failed code →
        run_tests runner
          = (["metis-docs-core", "metis-docs-cli", "metis-docs-mcp"], some code))
    ∧ (∀ runner, runner "metis-docs-core" = .passed →
        runner "metis-docs-cli" = .passed →
        runner "metis-docs-mcp" = .passed →
        run_tests runner
          = (["metis-docs-core", "metis-docs-cli", "metis-docs-mcp"], none)) := by
  refine ⟨rfl, ?_, ?_, ?_, ?_⟩
  · intro runner code h1
    simp [run_tests, runTestsFrom, crate_configs, h1]
  · intro runner code h1 h2
    simp [run_tests, runTestsFrom, crate_configs, h1, h2]
  · intro runner code h1 h2 h3
    simp [run_tests, runTestsFrom, crate_configs, h1, h2, h3]
  · intro runner h1 h2 h3
    simp [run_tests, runTestsFrom, crate_configs, h1, h2, h3]

/-- Witness for C10: a runner failing on the second crate stops there with
its exit code; the third crate is not in the executed list. -/
theorem run_tests_stops_at_first_failure_witness :
    run_tests (fun n => if n = "metis-docs-cli" then .failed 101 else .passed)
      = (["metis-docs-core", "metis-docs-cli"], some 101) :=
  run_tests_stops_at_first_failure.2.2.1
    (fun n => if n = "metis-docs-cli" then .failed 101 else .passed) 101
    (by decide) (by decide)

end Metis
